import Mathlib

/-!
Shallow embedding of the vCard-cleaning engine of this repository
(`src/vcf/io.py` and `src/vcf/utils/models.py`; `src/vcf.py` duplicates the
same classes and functions verbatim).

Modelling conventions:
a Python string is a `List Char`; a file's text is a `List Char` and a line is
a `List Char` containing no newline once split.  A Python `set` whose elements
are inserted one by one and compared with structural `__eq__` is modelled as a
duplicate-free list in insertion order (`addElem`); the spec itself notes that
the source's set iteration order is implementation-defined, and insertion
order is the deterministic reading used here.  A raised `ValueError` is
`none` / an `Option` failure.  The `VERSION` float is carried as its rendered
text (the pipeline always passes `3.0`, which `"%.1f"` formats as `"3.0"`).
The regex classes are read over ASCII: `\w` is letters, digits and `_`.
-/

/-- Characters kept by the number normalization `re.sub("[^+0-9]", "", s)`. -/
def isPhoneChar (c : Char) : Bool := c = '+' || c.isDigit

/-- ASCII reading of the regex class `\w` used in the TEL pattern. -/
def isWordChar (c : Char) : Bool := c.isAlphanum || c = '_'

/-- Python `str.upper` (ASCII fragment). -/
def pyUpper (s : List Char) : List Char := s.map Char.toUpper

/-- Python whitespace characters, used by the `str.strip` test in `full_name`. -/
def pyIsSpace (c : Char) : Bool :=
  c = ' ' || c = '\t' || c = '\n' || c = '\r' || c = '\x0b' || c = '\x0c'

/-- Helper for `splitOnChar`: prepend a character to the first chunk. -/
def consHead (c : Char) : List (List Char) → List (List Char)
  | [] => [[c]]
  | l :: ls => (c :: l) :: ls

/-- Python `str.split(sep)` for a single-character separator. -/
def splitOnChar (sep : Char) : List Char → List (List Char)
  | [] => [[]]
  | c :: cs => if c = sep then [] :: splitOnChar sep cs else consHead c (splitOnChar sep cs)

/-- Python `sep.join(parts)`. -/
def joinWith (sep : List Char) : List (List Char) → List Char
  | [] => []
  | [l] => l
  | l :: l' :: ls => l ++ sep ++ joinWith sep (l' :: ls)

/-- Python `text.split("\n")`, as performed by `parse_vcf_file`. -/
def splitNl (cs : List Char) : List (List Char) := splitOnChar '\n' cs

/-- Lexicographic comparison of code points: the order Python's `sorted` uses
on strings. -/
def charListLe : List Char → List Char → Bool
  | [], _ => true
  | _ :: _, [] => false
  | a :: as, b :: bs => if a < b then true else if b < a then false else charListLe as bs

/-- Insertion step of the stable insertion sort modelling Python `sorted`:
the new element is placed before the first existing element it compares
less-or-equal to. -/
def insertSorted (le : List Char → List Char → Bool) (x : List Char) :
    List (List Char) → List (List Char)
  | [] => [x]
  | y :: ys => if le x y then x :: y :: ys else y :: insertSorted le x ys

/-- Python `sorted`: a stable sort; on lists of strings any stable sort by
the same total preorder produces the same output, so insertion sort models
it exactly. -/
def pySorted (le : List Char → List Char → Bool) : List (List Char) → List (List Char)
  | [] => []
  | x :: xs => insertSorted le x (pySorted le xs)

/-- Insertion into a Python `set` (`set.add` / one step of `set.update`),
modelled on insertion-ordered duplicate-free lists. -/
def addElem {α : Type} [DecidableEq α] (xs : List α) (a : α) : List α :=
  if a ∈ xs then xs else xs ++ [a]

/-- The class `PhoneNumber` of `models.py` (attributes `number` and
`phone_type`); its `__eq__` and `__hash__` compare exactly this pair of
fields, which structural equality mirrors. -/
structure PhoneNumber where
  number : List Char
  phone_type : List Char
deriving DecidableEq, Repr

/-- The class attribute `PhoneNumber.__default_type = "CELL"`. -/
def PhoneNumber.default_type : List Char := "CELL".data

/-- Method `PhoneNumber.__str__`: `TEL;TYPE=<phone_type>:<number>`. -/
def PhoneNumber.render (p : PhoneNumber) : List Char :=
  "TEL;TYPE=".data ++ p.phone_type ++ ':' :: p.number

/-- Classmethod `PhoneNumber.from_vcf_line`: `re.match` of the pattern
`TEL;TYPE=(\w+):(.+)`.  Since `:` is not a word character, the first group is
the maximal word-character run after the literal head (it must be non-empty
and be followed immediately by `:`), and the greedy second group is everything
after that colon up to a newline (`.` does not match one) and must be
non-empty.  The type token is uppercased, the number keeps only digits and
`+`, and unless `preserve_type` the type is replaced by the default `CELL`.
The source's raised `ValueError` is `none`. -/
def PhoneNumber.from_vcf_line (line : List Char) (preserve_type : Bool) : Option PhoneNumber :=
  if "TEL;TYPE=".data.isPrefixOf line then
    let rest := line.drop 9
    if rest.takeWhile isWordChar = [] then none
    else
      match rest.dropWhile isWordChar with
      | ':' :: r =>
        if r.takeWhile (fun ch => ch ≠ '\n') = [] then none
        else some
          { number := (r.takeWhile (fun ch => ch ≠ '\n')).filter isPhoneChar,
            phone_type :=
              if preserve_type then pyUpper (rest.takeWhile isWordChar)
              else PhoneNumber.default_type }
      | _ => none
  else none

/-- The class `VCFContact` of `models.py`.  The Python attribute `prefix` is a
Lean keyword and is embedded under the name `pfx`. -/
structure VCFContact where
  phones : List PhoneNumber := []
  other_info : List (List Char) := []
  categories : List (List Char) := []
  pfx : List Char := []
  first_name : List Char := []
  surname : List Char := []
  middle_name : List Char := []
  suffix : List Char := []
deriving DecidableEq, Repr

/-- Classmethod `is_end_of_contact`: exact equality with `END:VCARD`. -/
def VCFContact.is_end_of_contact (l : List Char) : Bool := l = "END:VCARD".data

/-- Classmethod `is_start_of_contact`: exact equality with `BEGIN:VCARD`. -/
def VCFContact.is_start_of_contact (l : List Char) : Bool := l = "BEGIN:VCARD".data

/-- Classmethod `is_version_line`: `startswith("VERSION:")`. -/
def VCFContact.is_version_line (l : List Char) : Bool := "VERSION:".data.isPrefixOf l

/-- Classmethod `is_service_line`: start marker, end marker or version line. -/
def VCFContact.is_service_line (l : List Char) : Bool :=
  VCFContact.is_start_of_contact l || VCFContact.is_end_of_contact l ||
    VCFContact.is_version_line l

/-- Classmethod `is_phone_line`: `startswith("TEL;")`. -/
def VCFContact.is_phone_line (l : List Char) : Bool := "TEL;".data.isPrefixOf l

/-- Classmethod `is_category_line`: `startswith("CATEGORIES:")`. -/
def VCFContact.is_category_line (l : List Char) : Bool := "CATEGORIES:".data.isPrefixOf l

/-- Classmethod `is_name_line`: `startswith("N:")`. -/
def VCFContact.is_name_line (l : List Char) : Bool := "N:".data.isPrefixOf l

/-- Classmethod `is_full_name_line`: `startswith("FN:")`. -/
def VCFContact.is_full_name_line (l : List Char) : Bool := "FN:".data.isPrefixOf l

/-- Regex match of `__name_pattern = "N:(.*?);(.*?);(.*?);(.*?);(.*?)"` via
`re.match`: anchored at the start; the non-greedy groups make the first four
semicolons the field delimiters (all necessarily before any newline, since `.`
does not match one), and the final non-greedy unanchored group always captures
the empty string. -/
def nameGroups (line : List Char) :
    Option (List Char × List Char × List Char × List Char × List Char) :=
  if "N:".data.isPrefixOf line then
    match splitOnChar ';' ((line.drop 2).takeWhile (fun c => c ≠ '\n')) with
    | a :: b :: m :: d :: _ :: _ => some (a, b, m, d, [])
    | _ => none
  else none

/-- Regex match of `__category_pattern = "CATEGORIES:(.+)"` via `re.match`:
the group is everything after the keyword up to a newline and must be
non-empty. -/
def categoryGroups (line : List Char) : Option (List Char) :=
  if "CATEGORIES:".data.isPrefixOf line then
    let rest := (line.drop 11).takeWhile (fun c => c ≠ '\n')
    if rest = [] then none else some rest
  else none

/-- Method `add_name`: on a regex failure the record is unchanged; otherwise
the five captured groups are assigned to surname, first name, middle name,
name prefix and suffix. -/
def VCFContact.add_name (c : VCFContact) (line : List Char) : VCFContact :=
  match nameGroups line with
  | none => c
  | some (a, b, m, d, e) =>
    { c with surname := a, first_name := b, middle_name := m, pfx := d, suffix := e }

/-- Method `add_category`: on a regex failure the record is unchanged;
otherwise the captured text is split on `,` and the tokens are added to the
category set (`set.update`). -/
def VCFContact.add_category (c : VCFContact) (line : List Char) : VCFContact :=
  match categoryGroups line with
  | none => c
  | some rest => { c with categories := (splitOnChar ',' rest).foldl addElem c.categories }

/-- Method `add_phone`: a `ValueError` from the factory is swallowed and the
record is unchanged; otherwise the phone is added to the phone set. -/
def VCFContact.add_phone (c : VCFContact) (line : List Char) : VCFContact :=
  match PhoneNumber.from_vcf_line line false with
  | none => c
  | some p => { c with phones := addElem c.phones p }

/-- Method `add_line`: the classification dispatch, in source order; service
and full-name lines are dropped, anything unrecognized joins `other_info`. -/
def VCFContact.add_line (c : VCFContact) (line : List Char) : VCFContact :=
  if VCFContact.is_service_line line then c
  else if VCFContact.is_name_line line then c.add_name line
  else if VCFContact.is_phone_line line then c.add_phone line
  else if VCFContact.is_category_line line then c.add_category line
  else if VCFContact.is_full_name_line line then c
  else { c with other_info := addElem c.other_info line }

/-- Property `full_name_parts`. -/
def VCFContact.full_name_parts (c : VCFContact) : List (List Char) :=
  [c.pfx, c.first_name, c.middle_name, c.surname, c.suffix]

/-- Property `name_parts`. -/
def VCFContact.name_parts (c : VCFContact) : List (List Char) :=
  [c.surname, c.first_name, c.middle_name, c.pfx, c.suffix]

/-- Property `full_name`: the space-join of the parts whose `strip()` is not
empty, i.e. of the parts containing some non-whitespace character. -/
def VCFContact.full_name (c : VCFContact) : List Char :=
  joinWith [' '] (c.full_name_parts.filter (fun p => !(p.all pyIsSpace)))

/-- Method `get_full_name_line`. -/
def VCFContact.get_full_name_line (c : VCFContact) : List Char :=
  "FN:".data ++ c.full_name

/-- Method `get_name_line`: the `%s;%s;%s;%s;%s` interpolation of `name_parts`. -/
def VCFContact.get_name_line (c : VCFContact) : List Char :=
  "N:".data ++ joinWith [';'] c.name_parts

/-- Method `get_version`; the source interpolates the float version with
`"%.1f"`, and this embedding takes the already-formatted text. -/
def VCFContact.get_version (v : List Char) : List Char := "VERSION:".data ++ v

/-- Method `get_sorted_phones`: the rendered phone strings, sorted. -/
def VCFContact.get_sorted_phones (c : VCFContact) : List (List Char) :=
  pySorted charListLe (c.phones.map PhoneNumber.render)

/-- Method `get_categories`: `None` when the category set is empty, else the
`CATEGORIES:` keyword followed by the comma-join of the set. -/
def VCFContact.get_categories (c : VCFContact) : Option (List Char) :=
  if c.categories = [] then none
  else some ("CATEGORIES:".data ++ joinWith [','] c.categories)

/-- Method `is_empty`: true iff the phone set is empty. -/
def VCFContact.is_empty (c : VCFContact) : Bool := c.phones.isEmpty

/-- Method `_to_vcf`: the serialized lines, newline-joined.  The categories
line is appended exactly when `get_categories` is not `None` (its string is
never empty, carrying the keyword). -/
def VCFContact._to_vcf (c : VCFContact) (v : List Char) (include_other_info : Bool) : List Char :=
  joinWith ['\n'] (
    ["BEGIN:VCARD".data, VCFContact.get_version v, c.get_full_name_line, c.get_name_line]
    ++ (match c.get_categories with
        | some cats => [cats]
        | none => [])
    ++ c.get_sorted_phones
    ++ (if include_other_info then c.other_info else [])
    ++ ["END:VCARD".data, [], []])

/-- Method `to_vcf`: raises `ValueError("Empty contact")` (`none`) on an empty
record, else defers to `_to_vcf`. -/
def VCFContact.to_vcf (c : VCFContact) (v : List Char) (include_other_info : Bool) :
    Option (List Char) :=
  if c.is_empty then none else some (c._to_vcf v include_other_info)

/-- The grouping loop of `parse_vcf_file`: an end marker finalizes the current
buffer, service lines are skipped, anything else is appended; the trailing
unterminated buffer is discarded when the input runs out. -/
def groupContacts : List (List Char) → List (List Char) → List (List (List Char))
  | [], _ => []
  | l :: rest, cur =>
    if VCFContact.is_end_of_contact l then cur :: groupContacts rest []
    else if VCFContact.is_service_line l then groupContacts rest cur
    else groupContacts rest (cur ++ [l])

/-- The second loop of `parse_vcf_file`: a fresh record fed every buffered
line through `add_line`. -/
def buildContact (lines : List (List Char)) : VCFContact :=
  lines.foldl VCFContact.add_line {}

/-- Function `parse_vcf_file`, applied to the text the file holds. -/
def parse_vcf_file (content : List Char) : List VCFContact :=
  (groupContacts (splitNl content) []).map buildContact

/-- Function `write_contacts_to_vcf_file`, returning the text written: each
record's `to_vcf` is appended, and a record raising `ValueError` is skipped. -/
def write_contacts_to_vcf_file (contacts : List VCFContact) (v : List Char)
    (include_unprocessed_values : Bool) : List Char :=
  contacts.foldl (fun acc c =>
    match c.to_vcf v include_unprocessed_values with
    | some s => acc ++ s
    | none => acc) []

/-- Function `clean_vcf` on the file's text: parse, then re-serialize with
version 3.0 and passthrough disabled. -/
def clean_vcf (content : List Char) : List Char :=
  write_contacts_to_vcf_file (parse_vcf_file content) "3.0".data false

/-- Merge of two chunk lists, describing how `splitOnChar` acts on an
append: the last chunk of the left part fuses with the first chunk of the
right part. -/
def glue : List (List Char) → List (List Char) → List (List Char)
  | [], ys => ys
  | [x], [] => [x]
  | [x], y :: ys => (x ++ y) :: ys
  | x :: x' :: xs, ys => x :: glue (x' :: xs) ys

/-- Serialized record body between the service lines: full-name line, name
line, optional categories line, sorted phone lines. -/
def VCFContact.bodyLines (c : VCFContact) : List (List Char) :=
  [c.get_full_name_line, c.get_name_line]
  ++ (match c.get_categories with
      | some cats => [cats]
      | none => [])
  ++ c.get_sorted_phones

/-- Serialized record's lines except the final empty separator line. -/
def VCFContact.coreLines (c : VCFContact) (v : List Char) : List (List Char) :=
  "BEGIN:VCARD".data :: VCFContact.get_version v :: (c.bodyLines ++ ["END:VCARD".data, []])

/-- Inverse of rendering for default-type phones, describing what re-parsing
a rendered phone line `TEL;TYPE=CELL:<number>` produces. -/
def decodePhone (l : List Char) : PhoneNumber :=
  { number := l.drop 14, phone_type := "CELL".data }

/-- Shape invariant of every record produced by parsing: name fields hold no
semicolon and no newline with an always-empty suffix, phones are
deduplicated with default type and normalized numbers, category tokens are
deduplicated and hold no comma and no newline. -/
def VCFContact.Reachable (c : VCFContact) : Prop :=
  (';' ∉ c.surname ∧ '\n' ∉ c.surname) ∧
  (';' ∉ c.first_name ∧ '\n' ∉ c.first_name) ∧
  (';' ∉ c.middle_name ∧ '\n' ∉ c.middle_name) ∧
  (';' ∉ c.pfx ∧ '\n' ∉ c.pfx) ∧
  c.suffix = [] ∧
  c.phones.Nodup ∧
  (∀ p ∈ c.phones, p.phone_type = "CELL".data ∧ p.number.all isPhoneChar = true) ∧
  c.categories.Nodup ∧
  (∀ t ∈ c.categories, ',' ∉ t ∧ '\n' ∉ t)

/-! Helper lemmas on the list and string utilities. -/

theorem takeWhile_all {α : Type} (p : α → Bool) (l : List α) (h : ∀ c ∈ l, p c = true) :
    l.takeWhile p = l := by
  induction l with
  | nil => rfl
  | cons x xs ih =>
    simp only [List.takeWhile_cons, h x (List.mem_cons_self x xs), if_true, ite_true]
    exact congrArg (x :: ·) (ih fun c hc => h c (List.mem_cons_of_mem x hc))

theorem takeWhile_append_stop {α : Type} (p : α → Bool) (w r : List α) (x : α)
    (hw : ∀ c ∈ w, p c = true) (hx : p x = false) :
    (w ++ x :: r).takeWhile p = w := by
  induction w with
  | nil => simp [List.takeWhile_cons, hx]
  | cons a as ih =>
    simp only [List.cons_append, List.takeWhile_cons, hw a (List.mem_cons_self a as)]
    exact congrArg (a :: ·) (ih fun c hc => hw c (List.mem_cons_of_mem a hc))

theorem dropWhile_append_stop {α : Type} (p : α → Bool) (w r : List α) (x : α)
    (hw : ∀ c ∈ w, p c = true) (hx : p x = false) :
    (w ++ x :: r).dropWhile p = x :: r := by
  induction w with
  | nil => simp [List.dropWhile_cons, hx]
  | cons a as ih =>
    simp only [List.cons_append, List.dropWhile_cons, hw a (List.mem_cons_self a as)]
    exact ih fun c hc => hw c (List.mem_cons_of_mem a hc)

theorem isPrefixOf_cons_cons (a b : Char) (as bs : List Char) :
    List.isPrefixOf (a :: as) (b :: bs) = (a == b && List.isPrefixOf as bs) := rfl

theorem isPrefixOf_append_self (a b : List Char) : a.isPrefixOf (a ++ b) = true :=
  List.isPrefixOf_iff_prefix.mpr (List.prefix_append a b)

theorem splitOnChar_ne_nil (sep : Char) (cs : List Char) : splitOnChar sep cs ≠ [] := by
  induction cs with
  | nil => simp [splitOnChar]
  | cons c cs ih =>
    simp only [splitOnChar]
    split
    · simp
    · match h : splitOnChar sep cs with
      | [] => exact absurd h ih
      | l :: ls => simp [consHead]

theorem sep_not_mem_of_mem_splitOnChar (sep : Char) (cs : List Char) :
    ∀ l ∈ splitOnChar sep cs, sep ∉ l := by
  induction cs with
  | nil =>
    intro l hl
    simp [splitOnChar] at hl
    simp [hl]
  | cons c cs ih =>
    intro l hl
    simp only [splitOnChar] at hl
    by_cases hc : c = sep
    · simp [hc] at hl
      rcases hl with h | h
      · simp [h]
      · exact ih l h
    · simp [hc] at hl
      match h : splitOnChar sep cs with
      | [] => exact absurd h (splitOnChar_ne_nil sep cs)
      | r :: rs =>
        rw [h, consHead] at hl
        rcases List.mem_cons.mp hl with h1 | h1
        · subst h1
          intro hmem
          rcases List.mem_cons.mp hmem with h2 | h2
          · exact hc h2.symm
          · exact ih r (h ▸ List.mem_cons_self r rs) h2
        · exact ih l (h ▸ List.mem_cons_of_mem r h1)

theorem mem_of_mem_of_mem_splitOnChar (sep : Char) (cs : List Char) :
    ∀ l ∈ splitOnChar sep cs, ∀ c ∈ l, c ∈ cs := by
  induction cs with
  | nil =>
    intro l hl
    simp [splitOnChar] at hl
    simp [hl]
  | cons x cs ih =>
    intro l hl c hc
    simp only [splitOnChar] at hl
    by_cases hx : x = sep
    · simp [hx] at hl
      rcases hl with h | h
      · simp [h] at hc
      · exact List.mem_cons_of_mem x (ih l h c hc)
    · simp [hx] at hl
      match h : splitOnChar sep cs with
      | [] => exact absurd h (splitOnChar_ne_nil sep cs)
      | r :: rs =>
        rw [h, consHead] at hl
        rcases List.mem_cons.mp hl with h1 | h1
        · subst h1
          rcases List.mem_cons.mp hc with h2 | h2
          · exact h2 ▸ List.mem_cons_self x cs
          · exact List.mem_cons_of_mem x (ih r (h ▸ List.mem_cons_self r rs) c h2)
        · exact List.mem_cons_of_mem x (ih l (h ▸ List.mem_cons_of_mem r h1) c hc)

theorem splitOnChar_of_not_mem (sep : Char) (x : List Char) (h : sep ∉ x) :
    splitOnChar sep x = [x] := by
  induction x with
  | nil => rfl
  | cons c cs ih =>
    have hc : ¬ c = sep := fun he => h (he ▸ List.mem_cons_self c cs)
    simp only [splitOnChar, if_neg hc]
    rw [ih (fun hm => h (List.mem_cons_of_mem c hm))]
    rfl

theorem splitOnChar_append_sep (sep : Char) (x R : List Char) (h : sep ∉ x) :
    splitOnChar sep (x ++ sep :: R) = x :: splitOnChar sep R := by
  induction x with
  | nil => simp [splitOnChar]
  | cons c cs ih =>
    have hc : ¬ c = sep := fun he => h (he ▸ List.mem_cons_self c cs)
    simp only [List.cons_append, splitOnChar, if_neg hc, List.append_eq]
    rw [ih (fun hm => h (List.mem_cons_of_mem c hm))]
    rfl

theorem splitOnChar_joinWith (sep : Char) :
    ∀ ls : List (List Char), ls ≠ [] → (∀ l ∈ ls, sep ∉ l) →
      splitOnChar sep (joinWith [sep] ls) = ls := by
  intro ls
  induction ls with
  | nil => intro h; exact absurd rfl h
  | cons x ls ih =>
    intro _ hmem
    match ls with
    | [] =>
      simp only [joinWith]
      exact splitOnChar_of_not_mem sep x (hmem x (List.mem_cons_self x []))
    | y :: ls' =>
      have : joinWith [sep] (x :: y :: ls') = x ++ sep :: joinWith [sep] (y :: ls') := by
        simp [joinWith]
      rw [this, splitOnChar_append_sep sep x _ (hmem x (List.mem_cons_self x _)),
        ih (by simp) (fun l hl => hmem l (List.mem_cons_of_mem x hl))]

theorem splitOnChar_append (sep : Char) (a b : List Char) :
    splitOnChar sep (a ++ b) = glue (splitOnChar sep a) (splitOnChar sep b) := by
  induction a with
  | nil =>
    simp only [List.nil_append, splitOnChar]
    match h : splitOnChar sep b with
    | [] => exact absurd h (splitOnChar_ne_nil sep b)
    | y :: ys => simp [glue]
  | cons c a ih =>
    by_cases hc : c = sep
    · match h : splitOnChar sep a with
      | [] => exact absurd h (splitOnChar_ne_nil sep a)
      | r :: rs =>
        simp only [List.cons_append, splitOnChar, List.append_eq, if_pos hc, ih, h, glue]
    · match h : splitOnChar sep a, hb : splitOnChar sep b with
      | [], _ => exact absurd h (splitOnChar_ne_nil sep a)
      | _, [] => exact absurd hb (splitOnChar_ne_nil sep b)
      | [r], y :: ys =>
        simp [List.cons_append, splitOnChar, List.append_eq, if_neg hc, ih, h, hb, glue, consHead]
      | r :: s :: rs, y :: ys =>
        simp [List.cons_append, splitOnChar, List.append_eq, if_neg hc, ih, h, hb, glue, consHead]

theorem glue_snoc_nil (xs ys : List (List Char)) (h : ys ≠ []) :
    glue (xs ++ [[]]) ys = xs ++ ys := by
  induction xs with
  | nil =>
    match ys with
    | [] => exact absurd rfl h
    | y :: ys => simp [glue]
  | cons x xs ih =>
    have hne : xs ++ [[]] ≠ [] := by simp
    match hx : xs ++ [[]] with
    | [] => exact absurd hx hne
    | z :: zs =>
      simp only [List.cons_append, hx, glue, List.cons.injEq]
      rw [← hx, ih]
      simp

theorem not_mem_joinWith (x : Char) (sep : List Char) :
    ∀ ls : List (List Char), x ∉ sep → (∀ l ∈ ls, x ∉ l) → x ∉ joinWith sep ls := by
  intro ls
  induction ls with
  | nil => intro _ _; simp [joinWith]
  | cons l ls ih =>
    intro hs hmem
    match ls with
    | [] =>
      simp only [joinWith]
      exact hmem l (List.mem_cons_self l [])
    | y :: ls' =>
      simp only [joinWith, List.append_assoc]
      intro hx
      rcases List.mem_append.mp hx with h | h
      · exact hmem l (List.mem_cons_self l _) h
      · rcases List.mem_append.mp h with h2 | h2
        · exact hs h2
        · exact ih hs (fun m hm => hmem m (List.mem_cons_of_mem l hm)) h2

theorem joinWith_ne_nil (sep : List Char) (ls : List (List Char))
    (h0 : ls ≠ []) (h1 : ls ≠ [[]]) (hs : sep ≠ []) : joinWith sep ls ≠ [] := by
  match ls with
  | [] => exact absurd rfl h0
  | [x] =>
    have : x ≠ [] := fun he => h1 (by rw [he])
    simpa [joinWith] using this
  | x :: y :: ls' =>
    simp only [joinWith]
    intro he
    rcases List.append_eq_nil.mp he with ⟨he1, he2⟩
    rcases List.append_eq_nil.mp he1 with ⟨_, he3⟩
    exact hs he3

theorem mem_addElem {α : Type} [DecidableEq α] (xs : List α) (a x : α) :
    x ∈ addElem xs a ↔ x ∈ xs ∨ x = a := by
  simp only [addElem]
  split
  · rename_i h
    constructor
    · exact fun hx => Or.inl hx
    · rintro (hx | rfl)
      · exact hx
      · exact h
  · simp [List.mem_append]

theorem addElem_nodup {α : Type} [DecidableEq α] (xs : List α) (a : α) (h : xs.Nodup) :
    (addElem xs a).Nodup := by
  simp only [addElem]
  split
  · exact h
  · rename_i hmem
    simpa [List.nodup_append, h] using fun hx => hmem hx

theorem addElem_ne_nil {α : Type} [DecidableEq α] (xs : List α) (a : α) : addElem xs a ≠ [] := by
  simp only [addElem]
  split
  · rename_i h
    exact fun he => by simp [he] at h
  · simp

theorem mem_foldl_addElem {α : Type} [DecidableEq α] (l : List α) :
    ∀ (acc : List α) (x : α), x ∈ l.foldl addElem acc ↔ x ∈ acc ∨ x ∈ l := by
  induction l with
  | nil => intro acc x; simp
  | cons a l ih =>
    intro acc x
    rw [List.foldl_cons, ih, mem_addElem]
    constructor
    · rintro ((h | h) | h)
      · exact Or.inl h
      · exact Or.inr (by rw [h]; exact List.mem_cons_self a l)
      · exact Or.inr (List.mem_cons_of_mem a h)
    · rintro (h | h)
      · exact Or.inl (Or.inl h)
      · rcases List.mem_cons.mp h with h2 | h2
        · exact Or.inl (Or.inr h2)
        · exact Or.inr h2

theorem foldl_addElem_nodup {α : Type} [DecidableEq α] (l : List α) :
    ∀ acc : List α, acc.Nodup → (l.foldl addElem acc).Nodup := by
  induction l with
  | nil => intro acc h; exact h
  | cons a l ih =>
    intro acc h
    rw [List.foldl_cons]
    exact ih _ (addElem_nodup acc a h)

theorem foldl_addElem_fresh {α : Type} [DecidableEq α] (l : List α) :
    ∀ acc : List α, l.Nodup → (∀ x ∈ l, x ∉ acc) → l.foldl addElem acc = acc ++ l := by
  induction l with
  | nil => intro acc _ _; simp
  | cons a l ih =>
    intro acc hnd hfresh
    rw [List.foldl_cons]
    have ha : addElem acc a = acc ++ [a] := by
      simp only [addElem, if_neg (hfresh a (List.mem_cons_self a l))]
    rw [ha, ih (acc ++ [a]) (List.nodup_cons.mp hnd).2]
    · simp
    · intro x hx
      simp only [List.mem_append, List.mem_singleton]
      rintro (h | rfl)
      · exact hfresh x (List.mem_cons_of_mem a hx) h
      · exact (List.nodup_cons.mp hnd).1 hx

theorem charListLe_trans :
    ∀ a b c : List Char, charListLe a b = true → charListLe b c = true → charListLe a c = true := by
  intro a
  induction a with
  | nil => intro b c _ _; rfl
  | cons x xs ih =>
    intro b c hab hbc
    match b, c with
    | [], _ => simp [charListLe] at hab
    | _ :: _, [] => simp [charListLe] at hbc
    | y :: ys, z :: zs =>
      simp only [charListLe] at hab hbc ⊢
      rcases lt_trichotomy y z with hyz | hyz | hyz
      · rcases lt_trichotomy x y with hxy | hxy | hxy
        · simp [lt_trans hxy hyz]
        · subst hxy
          simp [hyz]
        · rw [if_neg (lt_asymm hxy), if_pos hxy] at hab
          exact absurd hab (by simp)
      · subst hyz
        rcases lt_trichotomy x y with hxy | hxy | hxy
        · simp [hxy]
        · subst hxy
          simp only [if_neg (lt_irrefl x)] at hab hbc ⊢
          exact ih ys zs hab hbc
        · rw [if_neg (lt_asymm hxy), if_pos hxy] at hab
          exact absurd hab (by simp)
      · rw [if_neg (lt_asymm hyz), if_pos hyz] at hbc
        exact absurd hbc (by simp)

theorem charListLe_total : ∀ a b : List Char, (charListLe a b || charListLe b a) = true := by
  intro a
  induction a with
  | nil => intro b; simp [charListLe]
  | cons x xs ih =>
    intro b
    match b with
    | [] => simp [charListLe]
    | y :: ys =>
      simp only [charListLe]
      rcases lt_trichotomy x y with h | h | h
      · simp [h]
      · subst h
        simp only [lt_irrefl, ite_false, if_neg (lt_irrefl x)]
        exact ih ys
      · simp [h, lt_asymm h]

theorem charListLe_antisymm :
    ∀ a b : List Char, charListLe a b = true → charListLe b a = true → a = b := by
  intro a
  induction a with
  | nil =>
    intro b _ hba
    match b with
    | [] => rfl
    | y :: ys => simp [charListLe] at hba
  | cons x xs ih =>
    intro b hab hba
    match b with
    | [] => simp [charListLe] at hab
    | y :: ys =>
      simp only [charListLe] at hab hba
      rcases lt_trichotomy x y with h | h | h
      · rw [if_neg (lt_asymm h), if_pos h] at hba
        exact absurd hba (by simp)
      · subst h
        simp only [if_neg (lt_irrefl x)] at hab hba
        rw [ih ys hab hba]
      · rw [if_neg (lt_asymm h), if_pos h] at hab
        exact absurd hab (by simp)

theorem mem_insertSorted (le : List Char → List Char → Bool) (x z : List Char) :
    ∀ l : List (List Char), z ∈ insertSorted le x l ↔ z = x ∨ z ∈ l := by
  intro l
  induction l with
  | nil => simp [insertSorted]
  | cons y ys ih =>
    simp only [insertSorted]
    split
    · simp [List.mem_cons]
    · simp only [List.mem_cons, ih]
      tauto

theorem pairwise_insertSorted (le : List Char → List Char → Bool)
    (htrans : ∀ a b c, le a b = true → le b c = true → le a c = true)
    (htot : ∀ a b, (le a b || le b a) = true) (x : List Char) :
    ∀ l : List (List Char), List.Pairwise (fun a b => le a b = true) l →
      List.Pairwise (fun a b => le a b = true) (insertSorted le x l) := by
  intro l
  induction l with
  | nil => intro _; simp [insertSorted]
  | cons y ys ih =>
    intro h
    rcases List.pairwise_cons.mp h with ⟨hy, hys⟩
    simp only [insertSorted]
    split
    · rename_i hxy
      refine List.pairwise_cons.mpr ⟨?_, h⟩
      intro z hz
      rcases List.mem_cons.mp hz with rfl | hz2
      · exact hxy
      · exact htrans x y z hxy (hy z hz2)
    · rename_i hxy
      refine List.pairwise_cons.mpr ⟨?_, ih hys⟩
      intro z hz
      rcases (mem_insertSorted le x z ys).mp hz with hzx | hz2
      · rw [hzx]
        have := htot x y
        rw [Bool.or_eq_true] at this
        rcases this with h1 | h1
        · exact absurd h1 hxy
        · exact h1
      · exact hy z hz2

theorem perm_insertSorted (le : List Char → List Char → Bool) (x : List Char) :
    ∀ l : List (List Char), (insertSorted le x l).Perm (x :: l) := by
  intro l
  induction l with
  | nil => simp [insertSorted]
  | cons y ys ih =>
    simp only [insertSorted]
    split
    · exact List.Perm.refl _
    · exact ((ih.cons y).trans (List.Perm.swap x y ys))

theorem perm_pySorted (le : List Char → List Char → Bool) :
    ∀ l : List (List Char), (pySorted le l).Perm l := by
  intro l
  induction l with
  | nil => simp [pySorted]
  | cons x xs ih =>
    exact (perm_insertSorted le x (pySorted le xs)).trans (ih.cons x)

theorem pairwise_pySorted (le : List Char → List Char → Bool)
    (htrans : ∀ a b c, le a b = true → le b c = true → le a c = true)
    (htot : ∀ a b, (le a b || le b a) = true) :
    ∀ l : List (List Char), List.Pairwise (fun a b => le a b = true) (pySorted le l) := by
  intro l
  induction l with
  | nil => simp [pySorted]
  | cons x xs ih => exact pairwise_insertSorted le htrans htot x (pySorted le xs) ih

theorem pySorted_of_pairwise (le : List Char → List Char → Bool) :
    ∀ l : List (List Char), List.Pairwise (fun a b => le a b = true) l →
      pySorted le l = l := by
  intro l
  induction l with
  | nil => intro _; rfl
  | cons x xs ih =>
    intro h
    rcases List.pairwise_cons.mp h with ⟨hx, hxs⟩
    simp only [pySorted, ih hxs]
    match xs, hx with
    | [], _ => rfl
    | y :: ys, hx =>
      simp only [insertSorted, if_pos (hx y (List.mem_cons_self y ys))]

theorem sorted_get_sorted_phones (c : VCFContact) :
    List.Pairwise (fun a b => charListLe a b = true) c.get_sorted_phones :=
  pairwise_pySorted charListLe charListLe_trans charListLe_total (c.phones.map PhoneNumber.render)

theorem perm_get_sorted_phones (c : VCFContact) :
    c.get_sorted_phones.Perm (c.phones.map PhoneNumber.render) :=
  perm_pySorted charListLe (c.phones.map PhoneNumber.render)

/-! Classification facts about lines with a known head character. -/

theorem head_not_end {x : Char} {xs : List Char} (hE : x ≠ 'E') :
    VCFContact.is_end_of_contact (x :: xs) = false := by
  simp only [VCFContact.is_end_of_contact]
  simp [hE]

theorem head_not_service {x : Char} {xs : List Char}
    (hB : x ≠ 'B') (hE : x ≠ 'E') (hV : x ≠ 'V') :
    VCFContact.is_service_line (x :: xs) = false := by
  simp only [VCFContact.is_service_line, VCFContact.is_start_of_contact,
    VCFContact.is_end_of_contact, VCFContact.is_version_line]
  simp [isPrefixOf_cons_cons, hB, hE, Ne.symm hV]

theorem head_not_prefix {p x : Char} {ps xs : List Char} (h : p ≠ x) :
    List.isPrefixOf (p :: ps) (x :: xs) = false := by
  rw [isPrefixOf_cons_cons]
  simp [h]

theorem exists_suffix_of_isPrefixOf {a l : List Char} (h : a.isPrefixOf l = true) :
    ∃ t, l = a ++ t := by
  rcases List.isPrefixOf_iff_prefix.mp h with ⟨t, ht⟩
  exact ⟨t, ht.symm⟩

/-! Dispatch of `add_line` on each kind of rendered line. -/

theorem add_line_phone (c : VCFContact) (z : List Char) :
    c.add_line ("TEL;".data ++ z) = c.add_phone ("TEL;".data ++ z) := by
  have hs : VCFContact.is_service_line ("TEL;".data ++ z) = false :=
    head_not_service (by decide) (by decide) (by decide)
  have hn : VCFContact.is_name_line ("TEL;".data ++ z) = false :=
    head_not_prefix (by decide)
  have hp : VCFContact.is_phone_line ("TEL;".data ++ z) = true :=
    isPrefixOf_append_self "TEL;".data z
  simp only [VCFContact.add_line, hs, hn, hp]
  rfl

theorem add_line_name (c : VCFContact) (z : List Char) :
    c.add_line ("N:".data ++ z) = c.add_name ("N:".data ++ z) := by
  have hs : VCFContact.is_service_line ("N:".data ++ z) = false :=
    head_not_service (by decide) (by decide) (by decide)
  have hn : VCFContact.is_name_line ("N:".data ++ z) = true :=
    isPrefixOf_append_self "N:".data z
  simp only [VCFContact.add_line, hs, hn]
  rfl

theorem add_line_category (c : VCFContact) (z : List Char) :
    c.add_line ("CATEGORIES:".data ++ z) = c.add_category ("CATEGORIES:".data ++ z) := by
  have hs : VCFContact.is_service_line ("CATEGORIES:".data ++ z) = false :=
    head_not_service (by decide) (by decide) (by decide)
  have hn : VCFContact.is_name_line ("CATEGORIES:".data ++ z) = false :=
    head_not_prefix (by decide)
  have hp : VCFContact.is_phone_line ("CATEGORIES:".data ++ z) = false :=
    head_not_prefix (by decide)
  have hc : VCFContact.is_category_line ("CATEGORIES:".data ++ z) = true :=
    isPrefixOf_append_self "CATEGORIES:".data z
  simp only [VCFContact.add_line, hs, hn, hp, hc]
  rfl

theorem add_line_full_name (c : VCFContact) (z : List Char) :
    c.add_line ("FN:".data ++ z) = c := by
  have hs : VCFContact.is_service_line ('F' :: 'N' :: ':' :: z) = false :=
    head_not_service (by decide) (by decide) (by decide)
  have hn : VCFContact.is_name_line ('F' :: 'N' :: ':' :: z) = false :=
    head_not_prefix (by decide)
  have hp : VCFContact.is_phone_line ('F' :: 'N' :: ':' :: z) = false :=
    head_not_prefix (by decide)
  have hc : VCFContact.is_category_line ('F' :: 'N' :: ':' :: z) = false :=
    head_not_prefix (by decide)
  have hf : VCFContact.is_full_name_line ('F' :: 'N' :: ':' :: z) = true :=
    isPrefixOf_append_self "FN:".data z
  simp [VCFContact.add_line, hs, hn, hp, hc, hf]

theorem add_line_empty (c : VCFContact) :
    c.add_line [] = { c with other_info := addElem c.other_info [] } := by
  have h1 : VCFContact.is_service_line [] = false := by decide
  have h2 : VCFContact.is_name_line [] = false := by decide
  have h3 : VCFContact.is_phone_line [] = false := by decide
  have h4 : VCFContact.is_category_line [] = false := by decide
  have h5 : VCFContact.is_full_name_line [] = false := by decide
  simp [VCFContact.add_line, h1, h2, h3, h4, h5]

/-! Characterization of the writer and the phone-line factory. -/

theorem write_contacts_eq_flatten (cs : List VCFContact) (v : List Char) (i : Bool) :
    write_contacts_to_vcf_file cs v i =
      ((cs.filter (fun c => !c.is_empty)).map (fun c => c._to_vcf v i)).flatten := by
  suffices h : ∀ acc, cs.foldl (fun acc c =>
      match c.to_vcf v i with
      | some s => acc ++ s
      | none => acc) acc =
      acc ++ ((cs.filter (fun c => !c.is_empty)).map (fun c => c._to_vcf v i)).flatten by
    simpa [write_contacts_to_vcf_file] using h []
  induction cs with
  | nil => intro acc; simp
  | cons c cs ih =>
    intro acc
    rw [List.foldl_cons]
    by_cases hc : c.is_empty
    · have hv : c.to_vcf v i = none := by simp [VCFContact.to_vcf, hc]
      simp [hv, hc, ih]
    · have hv : c.to_vcf v i = some (c._to_vcf v i) := by simp [VCFContact.to_vcf, hc]
      simp [hv, hc, ih, List.append_assoc]

theorem from_vcf_line_general (w rest : List Char) (preserve : Bool)
    (hw : w ≠ []) (hword : ∀ ch ∈ w, isWordChar ch = true)
    (hr : rest ≠ []) (hnl : ∀ ch ∈ rest, ch ≠ '\n') :
    PhoneNumber.from_vcf_line ("TEL;TYPE=".data ++ (w ++ ':' :: rest)) preserve =
      some { number := rest.filter isPhoneChar,
             phone_type := if preserve then pyUpper w else PhoneNumber.default_type } := by
  have hpre : "TEL;TYPE=".data.isPrefixOf ("TEL;TYPE=".data ++ (w ++ ':' :: rest)) = true :=
    isPrefixOf_append_self _ _
  have hdrop : ("TEL;TYPE=".data ++ (w ++ ':' :: rest)).drop 9 = w ++ ':' :: rest := by
    rw [show (9 : Nat) = "TEL;TYPE=".data.length from rfl, List.drop_left]
  have hcolon : isWordChar ':' = false := by decide
  have htake : (w ++ ':' :: rest).takeWhile isWordChar = w :=
    takeWhile_append_stop isWordChar w rest ':' hword hcolon
  have hdropw : (w ++ ':' :: rest).dropWhile isWordChar = ':' :: rest :=
    dropWhile_append_stop isWordChar w rest ':' hword hcolon
  have htakenl : rest.takeWhile (fun ch => ch ≠ '\n') = rest := by
    apply takeWhile_all
    intro ch hch
    exact decide_eq_true (hnl ch hch)
  simp only [PhoneNumber.from_vcf_line, hpre, if_true, hdrop, htake, hdropw, htakenl,
    if_neg hw, if_neg hr]

/-! Claim theorems. -/

/-- C3: `to_vcf` fails with the empty-record error exactly when the record's
phone set is empty, and the writer skips each record whose serialization
fails, concatenating the serialized text of all remaining records in input
order. -/
theorem serialize_error_iff_empty_render_skips (v : List Char) (i : Bool) :
    (∀ c : VCFContact, c.to_vcf v i = none ↔ c.is_empty = true) ∧
    (∀ cs : List VCFContact, write_contacts_to_vcf_file cs v i =
      ((cs.filter (fun c => !c.is_empty)).map (fun c => c._to_vcf v i)).flatten) := by
  constructor
  · intro c
    by_cases hc : c.is_empty <;> simp [VCFContact.to_vcf, hc]
  · intro cs
    exact write_contacts_eq_flatten cs v i

/-- C5: `from_vcf_line` on a line of shape `TEL;TYPE=<word>:<rest>` keeps from
the number exactly the digits and `+` signs, uppercases the parsed type when
`preserve_type` holds and otherwise replaces it with the default `CELL`; in
particular the two concrete examples of the spec. -/
theorem phone_parse_normalizes :
    (∀ (w rest : List Char) (preserve : Bool),
      w ≠ [] → (∀ ch ∈ w, isWordChar ch = true) → rest ≠ [] → (∀ ch ∈ rest, ch ≠ '\n') →
      PhoneNumber.from_vcf_line ("TEL;TYPE=".data ++ (w ++ ':' :: rest)) preserve =
        some { number := rest.filter isPhoneChar,
               phone_type := if preserve then pyUpper w else "CELL".data }) ∧
    PhoneNumber.from_vcf_line "TEL;TYPE=CELL:(555) 123-4567".data false =
      some { number := "5551234567".data, phone_type := "CELL".data } ∧
    (PhoneNumber.from_vcf_line "TEL;TYPE=WORK:12345".data false).map PhoneNumber.render =
      some "TEL;TYPE=CELL:12345".data := by
  refine ⟨?_, by decide, by decide⟩
  intro w rest preserve hw hword hr hnl
  simpa [PhoneNumber.default_type] using from_vcf_line_general w rest preserve hw hword hr hnl

/-- Witness for C5 with a concrete preserved-type line. -/
theorem phone_parse_normalizes_witness :
    PhoneNumber.from_vcf_line ("TEL;TYPE=".data ++ ("home".data ++ ':' :: "12 3".data)) true =
      some { number := "123".data, phone_type := "HOME".data } :=
  (phone_parse_normalizes.1 "home".data "12 3".data true (by decide) (by decide) (by decide)
    (by decide)).trans (by decide)

/-- C10: a `TEL;TYPE=<word>:<rest>` line whose rest holds no digit and no `+`
still parses, with the empty string as number; it renders as
`TEL;TYPE=CELL:` and makes the containing record non-empty. -/
theorem empty_number_phone_kept :
    ∀ (w rest : List Char) (c : VCFContact),
      w ≠ [] → (∀ ch ∈ w, isWordChar ch = true) → rest ≠ [] → (∀ ch ∈ rest, ch ≠ '\n') →
      (∀ ch ∈ rest, isPhoneChar ch = false) →
      PhoneNumber.from_vcf_line ("TEL;TYPE=".data ++ (w ++ ':' :: rest)) false =
        some { number := [], phone_type := "CELL".data } ∧
      PhoneNumber.render { number := [], phone_type := "CELL".data } = "TEL;TYPE=CELL:".data ∧
      (c.add_line ("TEL;TYPE=".data ++ (w ++ ':' :: rest))).is_empty = false := by
  intro w rest c hw hword hr hnl hnp
  have hfil : rest.filter isPhoneChar = [] := by
    rw [List.filter_eq_nil_iff]
    intro a ha
    simp [hnp a ha]
  have h2 : PhoneNumber.from_vcf_line ("TEL;TYPE=".data ++ (w ++ ':' :: rest)) false =
      some { number := [], phone_type := "CELL".data } := by
    have h1 := from_vcf_line_general w rest false hw hword hr hnl
    rw [hfil] at h1
    simpa [PhoneNumber.default_type] using h1
  refine ⟨h2, by decide, ?_⟩
  have hdis : c.add_line ("TEL;TYPE=".data ++ (w ++ ':' :: rest)) =
      c.add_phone ("TEL;TYPE=".data ++ (w ++ ':' :: rest)) :=
    add_line_phone c ("TYPE=".data ++ (w ++ ':' :: rest))
  rw [hdis]
  simp only [VCFContact.add_phone, h2, VCFContact.is_empty]
  rw [List.isEmpty_eq_false]
  exact addElem_ne_nil _ _

/-- Witness for C10 at a concrete all-letters number. -/
theorem empty_number_phone_kept_witness :
    (({} : VCFContact).add_line ("TEL;TYPE=".data ++ ("CELL".data ++ ':' :: "abc".data))).is_empty
      = false :=
  (empty_number_phone_kept "CELL".data "abc".data {} (by decide) (by decide) (by decide)
    (by decide) (by decide)).2.2

/-- C9: on a line beginning with the name keyword and holding at least four
semicolons, `add_name` succeeds, the first four fields are the text between
the keyword and the first four semicolons, and the suffix is assigned the
empty string no matter what follows the fourth semicolon. -/
theorem name_fifth_field_discarded :
    ∀ (c : VCFContact) (line : List Char) (a b m d : List Char) (rest2 : List (List Char)),
      VCFContact.is_name_line line = true →
      (∀ ch ∈ line, ch ≠ '\n') →
      splitOnChar ';' (line.drop 2) = a :: b :: m :: d :: rest2 →
      rest2 ≠ [] →
      nameGroups line = some (a, b, m, d, []) ∧
      c.add_line line = { c with surname := a, first_name := b, middle_name := m,
                                 pfx := d, suffix := [] } := by
  intro c line a b m d rest2 hname hnl hsplit hr2
  obtain ⟨z, rfl⟩ :=
    exists_suffix_of_isPrefixOf (show List.isPrefixOf "N:".data line = true from hname)
  have hdrop : ("N:".data ++ z).drop 2 = z := by
    rw [show (2 : Nat) = "N:".data.length from rfl, List.drop_left]
  have htake : z.takeWhile (fun ch => ch ≠ '\n') = z := by
    apply takeWhile_all
    intro ch hch
    exact decide_eq_true (hnl ch (List.mem_append.mpr (Or.inr hch)))
  rw [hdrop] at hsplit
  have hng : nameGroups ("N:".data ++ z) = some (a, b, m, d, []) := by
    simp only [nameGroups, isPrefixOf_append_self, if_true, hdrop, htake, hsplit]
    rcases rest2 with _ | ⟨e, es⟩
    · exact absurd rfl hr2
    · rfl
  refine ⟨hng, ?_⟩
  rw [add_line_name]
  simp only [VCFContact.add_name]
  rw [hng]

/-- Witness for C9: a non-empty fifth name field is discarded. -/
theorem name_fifth_field_discarded_witness :
    ({} : VCFContact).add_line "N:a;b;c;d;EXTRA".data =
      { surname := "a".data, first_name := "b".data, middle_name := "c".data,
        pfx := "d".data, suffix := [] } :=
  (name_fifth_field_discarded {} "N:a;b;c;d;EXTRA".data "a".data "b".data "c".data "d".data
    ["EXTRA".data] (by decide) (by decide) (by decide) (by decide)).2

/-- C7: a category line's value is everything after the keyword, split on
commas with tokens kept verbatim (no trimming), and unioned into the record's
category set; feeding `A,B` then `B,C` yields exactly the three categories. -/
theorem category_lines_union :
    (∀ (c : VCFContact) (rest : List Char),
      rest ≠ [] → (∀ ch ∈ rest, ch ≠ '\n') →
      (c.add_line ("CATEGORIES:".data ++ rest)).categories =
        (splitOnChar ',' rest).foldl addElem c.categories ∧
      (∀ x, x ∈ (c.add_line ("CATEGORIES:".data ++ rest)).categories ↔
        x ∈ c.categories ∨ x ∈ splitOnChar ',' rest) ∧
      (c.categories.Nodup → (c.add_line ("CATEGORIES:".data ++ rest)).categories.Nodup)) ∧
    (buildContact ["CATEGORIES:A,B".data, "CATEGORIES:B,C".data]).categories =
      ["A".data, "B".data, "C".data] ∧
    (buildContact ["CATEGORIES: A ,B".data]).categories = [" A ".data, "B".data] := by
  refine ⟨?_, by decide, by decide⟩
  intro c rest hr hnl
  have hdrop : ("CATEGORIES:".data ++ rest).drop 11 = rest := by
    rw [show (11 : Nat) = "CATEGORIES:".data.length from rfl, List.drop_left]
  have htake : rest.takeWhile (fun ch => ch ≠ '\n') = rest := by
    apply takeWhile_all
    intro ch hch
    exact decide_eq_true (hnl ch hch)
  have hcg : categoryGroups ("CATEGORIES:".data ++ rest) = some rest := by
    simp only [categoryGroups, isPrefixOf_append_self, if_true, hdrop, htake, if_neg hr]
  have hadd : (c.add_line ("CATEGORIES:".data ++ rest)).categories =
      (splitOnChar ',' rest).foldl addElem c.categories := by
    rw [add_line_category]
    simp only [VCFContact.add_category]
    rw [hcg]
  refine ⟨hadd, fun x => ?_, fun hnd => ?_⟩
  · rw [hadd]
    exact mem_foldl_addElem _ _ _
  · rw [hadd]
    exact foldl_addElem_nodup _ _ hnd

/-- Witness for C7 at a concrete record and category value. -/
theorem category_lines_union_witness :
    (({} : VCFContact).add_line ("CATEGORIES:".data ++ "X,Y".data)).categories =
      (splitOnChar ',' "X,Y".data).foldl addElem ([] : List (List Char)) :=
  (category_lines_union.1 {} "X,Y".data (by decide) (by decide)).1

/-- C6: a line recognized as a name, phone or category line whose structured
pattern fails to match leaves the record unchanged and does not interrupt the
processing of the surrounding lines. -/
theorem malformed_structured_line_noop :
    ∀ l : List Char,
      ((VCFContact.is_name_line l = true ∧ nameGroups l = none) ∨
       (VCFContact.is_phone_line l = true ∧ PhoneNumber.from_vcf_line l false = none) ∨
       (VCFContact.is_category_line l = true ∧ categoryGroups l = none)) →
      (∀ c : VCFContact, c.add_line l = c) ∧
      (∀ pre post : List (List Char), buildContact (pre ++ l :: post) = buildContact (pre ++ post)) := by
  intro l hl
  have hstep : ∀ c : VCFContact, c.add_line l = c := by
    intro c
    rcases hl with ⟨h1, h2⟩ | ⟨h1, h2⟩ | ⟨h1, h2⟩
    · obtain ⟨z, rfl⟩ :=
        exists_suffix_of_isPrefixOf (show List.isPrefixOf "N:".data l = true from h1)
      rw [add_line_name]
      simp only [VCFContact.add_name]
      rw [h2]
    · obtain ⟨z, rfl⟩ :=
        exists_suffix_of_isPrefixOf (show List.isPrefixOf "TEL;".data l = true from h1)
      rw [add_line_phone]
      simp only [VCFContact.add_phone]
      rw [h2]
    · obtain ⟨z, rfl⟩ :=
        exists_suffix_of_isPrefixOf (show List.isPrefixOf "CATEGORIES:".data l = true from h1)
      rw [add_line_category]
      simp only [VCFContact.add_category]
      rw [h2]
  refine ⟨hstep, fun pre post => ?_⟩
  unfold buildContact
  rw [List.foldl_append, List.foldl_append, List.foldl_cons, hstep]

/-- Witness for C6: a phone line missing its colon separator. -/
theorem malformed_structured_line_noop_witness :
    ({ phones := [{ number := "1".data, phone_type := "CELL".data }] } : VCFContact).add_line
      "TEL;TYPE=X".data =
      { phones := [{ number := "1".data, phone_type := "CELL".data }] } :=
  (malformed_structured_line_noop "TEL;TYPE=X".data
    (Or.inr (Or.inl ⟨by decide, by decide⟩))).1 _

theorem from_vcf_line_shape (l : List Char) (p : PhoneNumber)
    (h : PhoneNumber.from_vcf_line l false = some p) :
    p.phone_type = "CELL".data ∧ p.number.all isPhoneChar = true ∧
    "TEL;TYPE=".data.isPrefixOf l = true := by
  simp only [PhoneNumber.from_vcf_line] at h
  split at h
  case isFalse => exact absurd h (by simp)
  case isTrue hpre =>
    split at h
    case isTrue => exact absurd h (by simp)
    case isFalse htok =>
      split at h
      case h_2 => exact absurd h (by simp)
      case h_1 r heq =>
        split at h
        case isTrue => exact absurd h (by simp)
        case isFalse hg2 =>
          rw [Option.some.injEq] at h
          subst h
          refine ⟨rfl, ?_, hpre⟩
          rw [List.all_eq_true]
          intro a ha
          exact List.of_mem_filter ha

/-- C2: two phone lines that normalize to the same number and the same
effective type parse to equal `PhoneNumber` values, collapse to a single
element of the phone set, and the record built from exactly those two lines
serializes with exactly one phone line. -/
theorem phone_dedup_collapses :
    ∀ (l1 l2 : List Char) (p1 p2 : PhoneNumber),
      PhoneNumber.from_vcf_line l1 false = some p1 →
      PhoneNumber.from_vcf_line l2 false = some p2 →
      p1.number = p2.number → p1.phone_type = p2.phone_type →
      p1 = p2 ∧
      (buildContact [l1, l2]).phones = [p1] ∧
      (splitNl ((buildContact [l1, l2])._to_vcf "3.0".data false)).countP
        VCFContact.is_phone_line = 1 := by
  intro l1 l2 p1 p2 h1 h2 hnum htype
  have hp12 : p1 = p2 := by
    cases p1
    cases p2
    simp only at hnum htype
    rw [hnum, htype]
  subst hp12
  obtain ⟨sh1t, sh1a, sh1pre⟩ := from_vcf_line_shape l1 p1 h1
  obtain ⟨z1, rfl⟩ := exists_suffix_of_isPrefixOf sh1pre
  obtain ⟨sh2t, sh2a, sh2pre⟩ := from_vcf_line_shape l2 p1 h2
  obtain ⟨z2, rfl⟩ := exists_suffix_of_isPrefixOf sh2pre
  have step1 : ({} : VCFContact).add_line ("TEL;TYPE=".data ++ z1) = { phones := [p1] } := by
    rw [show ("TEL;TYPE=".data ++ z1 : List Char) = "TEL;".data ++ ("TYPE=".data ++ z1) from rfl,
      add_line_phone]
    simp only [VCFContact.add_phone]
    rw [show PhoneNumber.from_vcf_line ("TEL;".data ++ ("TYPE=".data ++ z1)) false = some p1
      from h1]
    simp [addElem]
  have step2 : ({ phones := [p1] } : VCFContact).add_line ("TEL;TYPE=".data ++ z2) =
      { phones := [p1] } := by
    rw [show ("TEL;TYPE=".data ++ z2 : List Char) = "TEL;".data ++ ("TYPE=".data ++ z2) from rfl,
      add_line_phone]
    simp only [VCFContact.add_phone]
    rw [show PhoneNumber.from_vcf_line ("TEL;".data ++ ("TYPE=".data ++ z2)) false = some p1
      from h2]
    simp [addElem]
  have hb : buildContact ["TEL;TYPE=".data ++ z1, "TEL;TYPE=".data ++ z2] =
      { phones := [p1] } := by
    unfold buildContact
    rw [List.foldl_cons, step1, List.foldl_cons, step2]
    rfl
  refine ⟨rfl, by rw [hb], ?_⟩
  rw [hb]
  have hto : ({ phones := [p1] } : VCFContact)._to_vcf "3.0".data false =
      joinWith ['\n'] ["BEGIN:VCARD".data, "VERSION:3.0".data, "FN:".data, "N:;;;;".data,
        p1.render, "END:VCARD".data, [], []] := by
    rfl
  have hnlnum : ∀ ch ∈ p1.number, ch ≠ '\n' := by
    intro ch hch he
    have := List.all_eq_true.mp sh1a ch hch
    rw [he] at this
    exact absurd this (by decide)
  have hrend : p1.render = "TEL;TYPE=CELL:".data ++ p1.number := by
    rw [PhoneNumber.render, sh1t]
    rfl
  have hnlrender : ('\n' : Char) ∉ p1.render := by
    rw [hrend]
    intro hmem
    rcases List.mem_append.mp hmem with h | h
    · exact absurd h (by decide)
    · exact hnlnum '\n' h rfl
  have hsplit : splitNl (({ phones := [p1] } : VCFContact)._to_vcf "3.0".data false) =
      ["BEGIN:VCARD".data, "VERSION:3.0".data, "FN:".data, "N:;;;;".data,
        p1.render, "END:VCARD".data, [], []] := by
    rw [hto]
    apply splitOnChar_joinWith
    · simp
    · intro l hl
      simp only [List.mem_cons] at hl
      rcases hl with rfl | rfl | rfl | rfl | rfl | rfl | rfl | h
      · decide
      · decide
      · decide
      · decide
      · exact hnlrender
      · decide
      · simp
      · simp at h
        rw [h]
        simp
  rw [hsplit]
  have hrp : VCFContact.is_phone_line p1.render = true := by
    rw [hrend]
    exact isPrefixOf_append_self "TEL;".data ("TYPE=CELL:".data ++ p1.number)
  simp [List.countP_cons, hrp]
  decide

/-- Witness for C2 at two concrete lines with the same normalized number. -/
theorem phone_dedup_collapses_witness :
    (buildContact ["TEL;TYPE=CELL:555-111-2222".data, "TEL;TYPE=HOME:5551112222".data]).phones =
      [{ number := "5551112222".data, phone_type := "CELL".data }] :=
  (phone_dedup_collapses "TEL;TYPE=CELL:555-111-2222".data "TEL;TYPE=HOME:5551112222".data
    { number := "5551112222".data, phone_type := "CELL".data }
    { number := "5551112222".data, phone_type := "CELL".data }
    (by decide) (by decide) rfl rfl).2.1

theorem groupContacts_no_end (b : List (List Char))
    (h : ∀ l ∈ b, VCFContact.is_end_of_contact l = false) :
    ∀ cur, groupContacts b cur = [] := by
  induction b with
  | nil => intro cur; rfl
  | cons l b ih =>
    intro cur
    have he := h l (List.mem_cons_self l b)
    have ih' := ih fun x hx => h x (List.mem_cons_of_mem l hx)
    simp [groupContacts, he, ih']

theorem groupContacts_append_no_tail (a b : List (List Char))
    (hb : ∀ cur, groupContacts b cur = []) :
    ∀ cur, groupContacts (a ++ b) cur = groupContacts a cur := by
  induction a with
  | nil =>
    intro cur
    simp [groupContacts, hb cur]
  | cons l a ih =>
    intro cur
    by_cases he : VCFContact.is_end_of_contact l = true
    · simp [groupContacts, he, ih]
    · by_cases hs : VCFContact.is_service_line l = true
      · simp [groupContacts, he, hs, ih]
      · simp [groupContacts, he, hs, ih]

/-- C8: lines after the last record-end marker form a trailing unterminated
group that is silently discarded: they contribute no record to the parse
result. -/
theorem trailing_group_discarded :
    (∀ t : List Char, parse_vcf_file t = (groupContacts (splitNl t) []).map buildContact) ∧
    ∀ (ls trailing : List (List Char)),
      (∀ l ∈ trailing, VCFContact.is_end_of_contact l = false) →
      (groupContacts (ls ++ trailing) []).map buildContact =
        (groupContacts ls []).map buildContact := by
  refine ⟨fun t => rfl, fun ls trailing h => ?_⟩
  rw [groupContacts_append_no_tail ls trailing (groupContacts_no_end trailing h)]

/-- Witness for C8: a trailing unterminated record is dropped. -/
theorem trailing_group_discarded_witness :
    (groupContacts (["TEL;TYPE=CELL:123".data, "END:VCARD".data] ++
      ["BEGIN:VCARD".data, "TEL;TYPE=CELL:99".data]) []).map buildContact =
      (groupContacts ["TEL;TYPE=CELL:123".data, "END:VCARD".data] []).map buildContact :=
  trailing_group_discarded.2 _ _ (by decide)

/-- C4: a non-empty record serializes to exactly the begin marker, version
line, full-name line, structured name line, the categories line when and only
when the category set is non-empty, the phone lines sorted lexicographically
(a permutation of the rendered phone set), the other-info lines exactly when
requested, the end marker and two empty lines, newline-joined. -/
theorem serialize_line_structure :
    ∀ (c : VCFContact) (v : List Char) (i : Bool),
      c.is_empty = false →
      c.to_vcf v i = some (joinWith ['\n'] (
        ["BEGIN:VCARD".data, "VERSION:".data ++ v, "FN:".data ++ c.full_name,
         "N:".data ++ joinWith [';'] c.name_parts]
        ++ (if c.categories = [] then []
            else ["CATEGORIES:".data ++ joinWith [','] c.categories])
        ++ c.get_sorted_phones
        ++ (if i then c.other_info else [])
        ++ ["END:VCARD".data, [], []])) ∧
      List.Pairwise (fun a b => charListLe a b = true) c.get_sorted_phones ∧
      c.get_sorted_phones.Perm (c.phones.map PhoneNumber.render) := by
  intro c v i he
  refine ⟨?_, sorted_get_sorted_phones c, perm_get_sorted_phones c⟩
  simp only [VCFContact.to_vcf, he, Bool.false_eq_true, if_false]
  simp only [VCFContact._to_vcf, VCFContact.get_version, VCFContact.get_full_name_line,
    VCFContact.get_name_line, VCFContact.get_categories]
  by_cases hc : c.categories = [] <;> simp [hc]

/-- Witness for C4 at a concrete one-phone record with a category. -/
theorem serialize_line_structure_witness :
    ({ phones := [{ number := "1".data, phone_type := "CELL".data }],
       categories := ["x".data] } : VCFContact).to_vcf "3.0".data false =
      some "BEGIN:VCARD\nVERSION:3.0\nFN:\nN:;;;;\nCATEGORIES:x\nTEL;TYPE=CELL:1\nEND:VCARD\n\n".data :=
  ((serialize_line_structure
    { phones := [{ number := "1".data, phone_type := "CELL".data }],
      categories := ["x".data] }
    "3.0".data false (by decide)).1).trans (by decide)

/-! Lemmas toward idempotence: shape of matched groups and the parse
invariant. -/

theorem nameGroups_shape (line a b m d e : List Char)
    (h : nameGroups line = some (a, b, m, d, e)) :
    e = [] ∧ (';' ∉ a ∧ '\n' ∉ a) ∧ (';' ∉ b ∧ '\n' ∉ b) ∧
      (';' ∉ m ∧ '\n' ∉ m) ∧ (';' ∉ d ∧ '\n' ∉ d) := by
  simp only [nameGroups] at h
  split at h
  case isFalse => exact absurd h (by simp)
  case isTrue hpre =>
    split at h
    case h_2 => exact absurd h (by simp)
    case h_1 a' b' m' d' x xs heq =>
      rw [Option.some.injEq, Prod.mk.injEq, Prod.mk.injEq, Prod.mk.injEq, Prod.mk.injEq] at h
      obtain ⟨rfl, rfl, rfl, rfl, rfl⟩ := h
      have hfield : ∀ y ∈ splitOnChar ';' ((line.drop 2).takeWhile (fun c => c ≠ '\n')),
          ';' ∉ y ∧ '\n' ∉ y := by
        intro y hy
        refine ⟨sep_not_mem_of_mem_splitOnChar ';' _ y hy, fun hm => ?_⟩
        have hr := mem_of_mem_of_mem_splitOnChar ';' _ y hy '\n' hm
        have := List.mem_takeWhile_imp hr
        simp at this
      refine ⟨rfl, ?_, ?_, ?_, ?_⟩
      · exact hfield a' (heq ▸ List.mem_cons_self _ _)
      · exact hfield b' (heq ▸ List.mem_cons_of_mem _ (List.mem_cons_self _ _))
      · exact hfield m' (heq ▸ List.mem_cons_of_mem _ (List.mem_cons_of_mem _ (List.mem_cons_self _ _)))
      · exact hfield d' (heq ▸ List.mem_cons_of_mem _ (List.mem_cons_of_mem _
          (List.mem_cons_of_mem _ (List.mem_cons_self _ _))))

theorem categoryGroups_shape (line rest : List Char)
    (h : categoryGroups line = some rest) : ∀ ch ∈ rest, ch ≠ '\n' := by
  simp only [categoryGroups] at h
  split at h
  case isFalse => exact absurd h (by simp)
  case isTrue hpre =>
    split at h
    case isTrue => exact absurd h (by simp)
    case isFalse hne =>
      rw [Option.some.injEq] at h
      subst h
      intro ch hch
      have := List.mem_takeWhile_imp hch
      simpa using this

theorem reachable_empty : ({} : VCFContact).Reachable := by
  refine ⟨?_, ?_, ?_, ?_, rfl, ?_, ?_, ?_, ?_⟩ <;> simp [VCFContact.Reachable]

theorem reachable_add_line (c : VCFContact) (l : List Char) (h : c.Reachable) :
    (c.add_line l).Reachable := by
  obtain ⟨hs, hf, hm, hp, hsf, hnd, hph, hcnd, hcat⟩ := h
  simp only [VCFContact.add_line]
  split
  · exact ⟨hs, hf, hm, hp, hsf, hnd, hph, hcnd, hcat⟩
  split
  · simp only [VCFContact.add_name]
    split
    · exact ⟨hs, hf, hm, hp, hsf, hnd, hph, hcnd, hcat⟩
    · rename_i a b m d e hng
      obtain ⟨he, ha, hb, hmm, hd⟩ := nameGroups_shape l a b m d e hng
      subst he
      exact ⟨ha, hb, hmm, hd, rfl, hnd, hph, hcnd, hcat⟩
  split
  · simp only [VCFContact.add_phone]
    split
    · exact ⟨hs, hf, hm, hp, hsf, hnd, hph, hcnd, hcat⟩
    · rename_i p hvl
      obtain ⟨ht, ha, _⟩ := from_vcf_line_shape l p hvl
      refine ⟨hs, hf, hm, hp, hsf, addElem_nodup _ _ hnd, ?_, hcnd, hcat⟩
      intro q hq
      rcases (mem_addElem c.phones p q).mp hq with hq2 | hq2
      · exact hph q hq2
      · rw [hq2]
        exact ⟨ht, ha⟩
  split
  · simp only [VCFContact.add_category]
    split
    · exact ⟨hs, hf, hm, hp, hsf, hnd, hph, hcnd, hcat⟩
    · rename_i rest hcg
      have htoks : ∀ t ∈ splitOnChar ',' rest, ',' ∉ t ∧ '\n' ∉ t := by
        intro t ht
        refine ⟨sep_not_mem_of_mem_splitOnChar ',' rest t ht, fun hm2 => ?_⟩
        have := mem_of_mem_of_mem_splitOnChar ',' rest t ht '\n' hm2
        exact categoryGroups_shape l rest hcg '\n' this rfl
      refine ⟨hs, hf, hm, hp, hsf, hnd, hph, foldl_addElem_nodup _ _ hcnd, ?_⟩
      intro t ht
      rcases (mem_foldl_addElem _ _ t).mp ht with ht2 | ht2
      · exact hcat t ht2
      · exact htoks t ht2
  split
  · exact ⟨hs, hf, hm, hp, hsf, hnd, hph, hcnd, hcat⟩
  · exact ⟨hs, hf, hm, hp, hsf, hnd, hph, hcnd, hcat⟩

theorem reachable_buildContact (lines : List (List Char)) :
    (buildContact lines).Reachable := by
  unfold buildContact
  suffices h : ∀ c : VCFContact, c.Reachable → (lines.foldl VCFContact.add_line c).Reachable from
    h {} reachable_empty
  induction lines with
  | nil => intro c hc; exact hc
  | cons l ls ih =>
    intro c hc
    rw [List.foldl_cons]
    exact ih _ (reachable_add_line c l hc)

theorem reachable_parse (t : List Char) : ∀ c ∈ parse_vcf_file t, c.Reachable := by
  intro c hc
  rcases List.mem_map.mp hc with ⟨lines, _, rfl⟩
  exact reachable_buildContact lines

theorem to_vcf_lines (d : VCFContact) (v : List Char) :
    d._to_vcf v false = joinWith ['\n'] (d.coreLines v ++ [[]]) := by
  simp only [VCFContact._to_vcf, VCFContact.coreLines, VCFContact.bodyLines, Bool.false_eq_true,
    if_false, List.append_nil, List.cons_append, List.append_assoc, List.nil_append]

theorem body_lines_mem (d : VCFContact) (l : List Char) (hl : l ∈ d.bodyLines) :
    l = d.get_full_name_line ∨ l = d.get_name_line ∨
      (∃ cl, d.get_categories = some cl ∧ l = cl) ∨ l ∈ d.get_sorted_phones := by
  have hbody : d.bodyLines = [d.get_full_name_line, d.get_name_line] ++
      ((match d.get_categories with
        | some cats => [cats]
        | none => []) ++ d.get_sorted_phones) := rfl
  rw [hbody] at hl
  rcases List.mem_append.mp hl with hl1 | hl1
  · rcases List.mem_cons.mp hl1 with rfl | hl2
    · exact Or.inl rfl
    · rcases List.mem_cons.mp hl2 with rfl | hl3
      · exact Or.inr (Or.inl rfl)
      · simp at hl3
  · rcases List.mem_append.mp hl1 with hl2 | hl2
    · cases hg : d.get_categories with
      | none =>
        rw [hg] at hl2
        simp at hl2
      | some cl =>
        rw [hg] at hl2
        simp only [List.mem_singleton] at hl2
        exact Or.inr (Or.inr (Or.inl ⟨cl, rfl, hl2⟩))
    · exact Or.inr (Or.inr (Or.inr hl2))

theorem get_categories_shape (d : VCFContact) (cl : List Char)
    (h : d.get_categories = some cl) :
    cl = "CATEGORIES:".data ++ joinWith [','] d.categories ∧ d.categories ≠ [] := by
  simp only [VCFContact.get_categories] at h
  split at h
  · exact absurd h (by simp)
  · rename_i hc
    rw [Option.some.injEq] at h
    exact ⟨h.symm, hc⟩

theorem body_lines_not_end_service (d : VCFContact) :
    ∀ l ∈ d.bodyLines, VCFContact.is_end_of_contact l = false ∧
      VCFContact.is_service_line l = false := by
  intro l hl
  rcases body_lines_mem d l hl with rfl | rfl | ⟨cl, hg, hceq⟩ | hl2
  · exact ⟨head_not_end (by decide), head_not_service (by decide) (by decide) (by decide)⟩
  · exact ⟨head_not_end (by decide), head_not_service (by decide) (by decide) (by decide)⟩
  · obtain ⟨hcl, -⟩ := get_categories_shape d cl hg
    rw [hceq, hcl]
    exact ⟨head_not_end (by decide), head_not_service (by decide) (by decide) (by decide)⟩
  · have hl3 := (perm_get_sorted_phones d).mem_iff.mp hl2
    rcases List.mem_map.mp hl3 with ⟨p, _, rfl⟩
    exact ⟨head_not_end (by decide), head_not_service (by decide) (by decide) (by decide)⟩

theorem core_lines_mem (d : VCFContact) (v : List Char) (l : List Char)
    (hl : l ∈ d.coreLines v ++ [[]]) :
    l = "BEGIN:VCARD".data ∨ l = VCFContact.get_version v ∨ l ∈ d.bodyLines ∨
      l = "END:VCARD".data ∨ l = [] := by
  simp only [VCFContact.coreLines, List.cons_append, List.append_assoc, List.mem_cons,
    List.mem_append, List.mem_singleton] at hl
  tauto

theorem core_lines_no_nl (d : VCFContact) (v : List Char) (hre : d.Reachable)
    (hv : '\n' ∉ v) : ∀ l ∈ d.coreLines v ++ [[]], '\n' ∉ l := by
  obtain ⟨hs, hf, hm, hp, hsf, _, hph, _, hcat⟩ := hre
  have hfields : ∀ x ∈ d.full_name_parts, '\n' ∉ x := by
    intro x hx
    simp only [VCFContact.full_name_parts, List.mem_cons] at hx
    rcases hx with rfl | rfl | rfl | rfl | rfl | hx
    · exact hp.2
    · exact hf.2
    · exact hm.2
    · exact hs.2
    · rw [hsf]; simp
    · simp at hx
  have hnames : ∀ x ∈ d.name_parts, '\n' ∉ x := by
    intro x hx
    simp only [VCFContact.name_parts, List.mem_cons] at hx
    rcases hx with rfl | rfl | rfl | rfl | rfl | hx
    · exact hs.2
    · exact hf.2
    · exact hm.2
    · exact hp.2
    · rw [hsf]; simp
    · simp at hx
  intro l hl
  rcases core_lines_mem d v l hl with rfl | rfl | hb | rfl | rfl
  · decide
  · simp only [VCFContact.get_version]
    intro hmem
    rcases List.mem_append.mp hmem with h | h
    · exact absurd h (by decide)
    · exact hv h
  · rcases body_lines_mem d l hb with rfl | rfl | ⟨cl, hg, hceq⟩ | hl2
    · simp only [VCFContact.get_full_name_line]
      intro hmem
      rcases List.mem_append.mp hmem with h | h
      · exact absurd h (by decide)
      · refine not_mem_joinWith '\n' [' '] _ (by decide) ?_ h
        intro y hy
        exact hfields y (List.mem_filter.mp hy).1
    · simp only [VCFContact.get_name_line]
      intro hmem
      rcases List.mem_append.mp hmem with h | h
      · exact absurd h (by decide)
      · exact not_mem_joinWith '\n' [';'] _ (by decide) hnames h
    · obtain ⟨hcl, -⟩ := get_categories_shape d cl hg
      rw [hceq, hcl]
      intro hmem
      rcases List.mem_append.mp hmem with h | h
      · exact absurd h (by decide)
      · exact not_mem_joinWith '\n' [','] _ (by decide) (fun y hy => (hcat y hy).2) h
    · have hl3 := (perm_get_sorted_phones d).mem_iff.mp hl2
      rcases List.mem_map.mp hl3 with ⟨p, hpmem, rfl⟩
      have hrend : p.render = "TEL;TYPE=CELL:".data ++ p.number := by
        rw [PhoneNumber.render, (hph p hpmem).1]
        rfl
      rw [hrend]
      intro hmem
      rcases List.mem_append.mp hmem with h | h
      · exact absurd h (by decide)
      · have := List.all_eq_true.mp (hph p hpmem).2 '\n' h
        exact absurd this (by decide)
  · decide
  · simp

theorem groupContacts_skip (ls : List (List Char))
    (h : ∀ l ∈ ls, VCFContact.is_end_of_contact l = false ∧
      VCFContact.is_service_line l = false) :
    ∀ rest cur, groupContacts (ls ++ rest) cur = groupContacts rest (cur ++ ls) := by
  induction ls with
  | nil => intro rest cur; simp
  | cons l ls ih =>
    intro rest cur
    have hl := h l (List.mem_cons_self l ls)
    rw [List.cons_append]
    simp only [groupContacts, hl.1, hl.2, Bool.false_eq_true, if_false]
    rw [ih (fun x hx => h x (List.mem_cons_of_mem l hx)) rest (cur ++ [l])]
    simp

theorem groupContacts_lastsep (cur : List (List Char)) : groupContacts [[]] cur = [] := by
  have h1 : VCFContact.is_end_of_contact [] = false := by decide
  have h2 : VCFContact.is_service_line [] = false := by decide
  simp [groupContacts, h1, h2]

theorem groupContacts_cons_service (l : List Char)
    (h1 : VCFContact.is_end_of_contact l = false)
    (h2 : VCFContact.is_service_line l = true) (rest cur : List (List Char)) :
    groupContacts (l :: rest) cur = groupContacts rest cur := by
  simp [groupContacts, h1, h2]

theorem groupContacts_cons_end (l : List Char)
    (h : VCFContact.is_end_of_contact l = true) (rest cur : List (List Char)) :
    groupContacts (l :: rest) cur = cur :: groupContacts rest [] := by
  simp [groupContacts, h]

theorem groupContacts_cons_other (l : List Char)
    (h1 : VCFContact.is_end_of_contact l = false)
    (h2 : VCFContact.is_service_line l = false) (rest cur : List (List Char)) :
    groupContacts (l :: rest) cur = groupContacts rest (cur ++ [l]) := by
  simp [groupContacts, h1, h2]

theorem groupContacts_core (d : VCFContact) (v : List Char) (rest : List (List Char))
    (cur : List (List Char)) :
    groupContacts (d.coreLines v ++ rest) cur =
      (cur ++ d.bodyLines) :: groupContacts rest [[]] := by
  have hshape : d.coreLines v ++ rest =
      "BEGIN:VCARD".data :: VCFContact.get_version v ::
        (d.bodyLines ++ (["END:VCARD".data, []] ++ rest)) := by
    simp [VCFContact.coreLines]
  rw [hshape,
    groupContacts_cons_service "BEGIN:VCARD".data (by decide) (by decide),
    groupContacts_cons_service (VCFContact.get_version v) (head_not_end (by decide)) (by
      simp only [VCFContact.is_service_line, VCFContact.is_version_line, VCFContact.get_version,
        isPrefixOf_append_self, Bool.or_true]),
    groupContacts_skip d.bodyLines (body_lines_not_end_service d),
    show (["END:VCARD".data, []] ++ rest : List (List Char)) =
      "END:VCARD".data :: ([] :: rest) from rfl,
    groupContacts_cons_end "END:VCARD".data (by decide),
    groupContacts_cons_other [] (by decide) (by decide)]
  simp

theorem splitNl_block_append (d : VCFContact) (v : List Char) (rest : List Char)
    (hnl : ∀ l ∈ d.coreLines v ++ [[]], '\n' ∉ l) :
    splitNl (d._to_vcf v false ++ rest) = d.coreLines v ++ splitNl rest := by
  rw [to_vcf_lines]
  simp only [splitNl]
  rw [splitOnChar_append, splitOnChar_joinWith '\n' _ (by simp) hnl]
  exact glue_snoc_nil _ _ (splitOnChar_ne_nil _ _)

theorem decode_render (p : PhoneNumber) (h : p.phone_type = "CELL".data) :
    decodePhone p.render = p := by
  have hrend : p.render = "TEL;TYPE=CELL:".data ++ p.number := by
    rw [PhoneNumber.render, h]
    rfl
  simp only [decodePhone, hrend]
  rw [show (14 : Nat) = "TEL;TYPE=CELL:".data.length from rfl, List.drop_left]
  cases p with
  | mk n t =>
    simp only at h ⊢
    rw [h]

theorem fold_phone_lines :
    ∀ L : List (List Char),
      (∀ l ∈ L, ∃ p : PhoneNumber, l = p.render ∧ p.phone_type = "CELL".data ∧
        p.number ≠ [] ∧ p.number.all isPhoneChar = true) →
      ∀ c0 : VCFContact, List.foldl VCFContact.add_line c0 L =
        { c0 with phones := List.foldl addElem c0.phones (L.map decodePhone) } := by
  intro L
  induction L with
  | nil => intro _ c0; rfl
  | cons l L ih =>
    intro hL c0
    obtain ⟨p, rfl, ht, hne, hall⟩ := hL l (List.mem_cons_self l L)
    rw [List.foldl_cons, List.map_cons, List.foldl_cons, decode_render p ht]
    have hrend : p.render = "TEL;TYPE=CELL:".data ++ p.number := by
      rw [PhoneNumber.render, ht]
      rfl
    have hp : ({ number := p.number, phone_type := PhoneNumber.default_type } : PhoneNumber)
        = p := by
      cases p with
      | mk n t =>
        simp only at ht ⊢
        rw [ht]
        rfl
    have hparse : PhoneNumber.from_vcf_line ("TEL;".data ++ ("TYPE=CELL:".data ++ p.number))
        false = some p := by
      have hg := from_vcf_line_general "CELL".data p.number false (by decide) (by decide) hne
        (fun ch hch => by
          intro he
          have h2 := List.all_eq_true.mp hall ch hch
          rw [he] at h2
          exact absurd h2 (by decide))
      rw [List.filter_eq_self.mpr (fun a ha => List.all_eq_true.mp hall a ha)] at hg
      refine Eq.trans ?_ (congrArg some hp)
      exact hg
    have hstep : c0.add_line p.render = { c0 with phones := addElem c0.phones p } := by
      rw [hrend, show ("TEL;TYPE=CELL:".data ++ p.number : List Char) =
        "TEL;".data ++ ("TYPE=CELL:".data ++ p.number) from rfl, add_line_phone]
      simp only [VCFContact.add_phone]
      rw [hparse]
    rw [hstep, ih (fun x hx => hL x (List.mem_cons_of_mem p.render hx))]

theorem rebuild_body (d c0 : VCFContact) (hre : d.Reachable)
    (hnum : ∀ p ∈ d.phones, p.number ≠ []) (hcats : d.categories ≠ [[]])
    (h0p : c0.phones = []) (h0c : c0.categories = []) :
    List.foldl VCFContact.add_line c0 d.bodyLines =
      { c0 with phones := d.get_sorted_phones.map decodePhone,
                categories := d.categories,
                surname := d.surname, first_name := d.first_name,
                middle_name := d.middle_name, pfx := d.pfx, suffix := [] } := by
  obtain ⟨hsur, hfst, hmid, hpfx, hsuf, hnd, hph, hcnd, hcat⟩ := hre
  have hnames_nl : ∀ x ∈ d.name_parts, '\n' ∉ x := by
    intro x hx
    simp only [VCFContact.name_parts, List.mem_cons] at hx
    rcases hx with rfl | rfl | rfl | rfl | rfl | hx
    · exact hsur.2
    · exact hfst.2
    · exact hmid.2
    · exact hpfx.2
    · rw [hsuf]; simp
    · simp at hx
  have hnames_semi : ∀ x ∈ d.name_parts, ';' ∉ x := by
    intro x hx
    simp only [VCFContact.name_parts, List.mem_cons] at hx
    rcases hx with rfl | rfl | rfl | rfl | rfl | hx
    · exact hsur.1
    · exact hfst.1
    · exact hmid.1
    · exact hpfx.1
    · rw [hsuf]; simp
    · simp at hx
  have hphonesL : ∀ l ∈ d.get_sorted_phones, ∃ p : PhoneNumber, l = p.render ∧
      p.phone_type = "CELL".data ∧ p.number ≠ [] ∧ p.number.all isPhoneChar = true := by
    intro l hl
    have hl2 := (perm_get_sorted_phones d).mem_iff.mp hl
    rcases List.mem_map.mp hl2 with ⟨p, hp, rfl⟩
    exact ⟨p, rfl, (hph p hp).1, hnum p hp, (hph p hp).2⟩
  have hndL : (d.get_sorted_phones.map decodePhone).Nodup := by
    have hinj : ∀ p ∈ d.phones, ∀ q ∈ d.phones, p.render = q.render → p = q := by
      intro p hp q hq hpq
      have h1 : p.render = "TEL;TYPE=CELL:".data ++ p.number := by
        rw [PhoneNumber.render, (hph p hp).1]
        rfl
      have h2 : q.render = "TEL;TYPE=CELL:".data ++ q.number := by
        rw [PhoneNumber.render, (hph q hq).1]
        rfl
      rw [h1, h2] at hpq
      have hn : p.number = q.number := List.append_cancel_left hpq
      have ht1 := (hph p hp).1
      have ht2 := (hph q hq).1
      cases p
      cases q
      simp only at hn ht1 ht2
      simp [hn, ht1, ht2]
    have hmapr : (d.phones.map PhoneNumber.render).Nodup := List.Nodup.map_on hinj hnd
    have hLnd : d.get_sorted_phones.Nodup := (perm_get_sorted_phones d).symm.nodup hmapr
    refine List.Nodup.map_on ?_ hLnd
    intro x hx y hy hxy
    obtain ⟨p, rfl, hpt, -, -⟩ := hphonesL x hx
    obtain ⟨q, rfl, hqt, -, -⟩ := hphonesL y hy
    rw [decode_render p hpt, decode_render q hqt] at hxy
    rw [hxy]
  have hbody : d.bodyLines = d.get_full_name_line :: d.get_name_line ::
      ((match d.get_categories with
        | some cats => [cats]
        | none => []) ++ d.get_sorted_phones) := rfl
  have hng : nameGroups d.get_name_line =
      some (d.surname, d.first_name, d.middle_name, d.pfx, []) := by
    have hdrop : (("N:".data ++ joinWith [';'] d.name_parts)).drop 2 =
        joinWith [';'] d.name_parts := by
      rw [show (2 : Nat) = "N:".data.length from rfl, List.drop_left]
    have hnotin : ('\n' : Char) ∉ joinWith [';'] d.name_parts :=
      not_mem_joinWith '\n' [';'] _ (by decide) hnames_nl
    have hnonl : (joinWith [';'] d.name_parts).takeWhile (fun c => c ≠ '\n') =
        joinWith [';'] d.name_parts := by
      apply takeWhile_all
      intro ch hch
      exact decide_eq_true (fun he => hnotin (he ▸ hch))
    have hsplit : splitOnChar ';' (joinWith [';'] d.name_parts) = d.name_parts :=
      splitOnChar_joinWith ';' _ (by simp [VCFContact.name_parts]) hnames_semi
    show nameGroups ("N:".data ++ joinWith [';'] d.name_parts) = _
    simp only [nameGroups, isPrefixOf_append_self, if_true, hdrop, hnonl, hsplit]
    rw [show d.name_parts =
      [d.surname, d.first_name, d.middle_name, d.pfx, d.suffix] from rfl, hsuf]
  have haddname : c0.add_name d.get_name_line =
      { c0 with surname := d.surname, first_name := d.first_name,
                middle_name := d.middle_name, pfx := d.pfx, suffix := [] } := by
    simp only [VCFContact.add_name]
    rw [hng]
  rw [hbody, List.foldl_cons,
    show c0.add_line d.get_full_name_line = c0 from add_line_full_name c0 d.full_name,
    List.foldl_cons,
    show c0.add_line d.get_name_line = c0.add_name d.get_name_line from
      add_line_name c0 (joinWith [';'] d.name_parts),
    haddname]
  by_cases hc : d.categories = []
  · have hmatch : (match d.get_categories with
        | some cats => [cats]
        | none => []) = ([] : List (List Char)) := by
      simp [VCFContact.get_categories, hc]
    rw [hmatch, List.nil_append, fold_phone_lines _ hphonesL]
    simp only [h0p, h0c, hc]
    rw [foldl_addElem_fresh _ [] hndL (by simp)]
    simp
  · have hmatch : (match d.get_categories with
        | some cats => [cats]
        | none => []) =
        (["CATEGORIES:".data ++ joinWith [','] d.categories] : List (List Char)) := by
      simp [VCFContact.get_categories, hc]
    have hJ : joinWith [','] d.categories ≠ [] :=
      joinWith_ne_nil [','] d.categories hc hcats (by decide)
    have hcg : categoryGroups ("CATEGORIES:".data ++ joinWith [','] d.categories) =
        some (joinWith [','] d.categories) := by
      have hdrop : (("CATEGORIES:".data ++ joinWith [','] d.categories)).drop 11 =
          joinWith [','] d.categories := by
        rw [show (11 : Nat) = "CATEGORIES:".data.length from rfl, List.drop_left]
      have hnotin : ('\n' : Char) ∉ joinWith [','] d.categories :=
        not_mem_joinWith '\n' [','] _ (by decide) (fun y hy => (hcat y hy).2)
      have htw : (joinWith [','] d.categories).takeWhile (fun c => c ≠ '\n') =
          joinWith [','] d.categories := by
        apply takeWhile_all
        intro ch hch
        exact decide_eq_true (fun he => hnotin (he ▸ hch))
      simp only [categoryGroups, isPrefixOf_append_self, if_true, hdrop, htw, if_neg hJ]
    have haddcat : ∀ c : VCFContact,
        c.add_category ("CATEGORIES:".data ++ joinWith [','] d.categories) =
          { c with categories := (List.foldl addElem c.categories
              (splitOnChar ',' (joinWith [','] d.categories))) } := by
      intro c
      simp only [VCFContact.add_category]
      rw [hcg]
    rw [hmatch, List.singleton_append, List.foldl_cons, add_line_category, haddcat,
      splitOnChar_joinWith ',' d.categories hc (fun t ht => (hcat t ht).1)]
    simp only [h0c]
    rw [foldl_addElem_fresh _ [] hcnd (by simp), List.nil_append,
      fold_phone_lines _ hphonesL]
    simp only [h0p]
    rw [foldl_addElem_fresh _ [] hndL (by simp)]
    simp

theorem rebuilt_to_vcf (d c0 : VCFContact) (v : List Char) (hre : d.Reachable)
    (hne : d.phones ≠ []) :
    ({ c0 with phones := d.get_sorted_phones.map decodePhone, categories := d.categories, surname := d.surname, first_name := d.first_name, middle_name := d.middle_name, pfx := d.pfx, suffix := [] } : VCFContact).to_vcf v false = some (d._to_vcf v false) := by
  obtain ⟨hsur, hfst, hmid, hpfx, hsuf, hnd, hph, hcnd, hcat⟩ := hre
  have hrender_decode :
      (d.get_sorted_phones.map decodePhone).map PhoneNumber.render = d.get_sorted_phones := by
    rw [List.map_map]
    have hcon : ∀ l ∈ d.get_sorted_phones, (PhoneNumber.render ∘ decodePhone) l = l := by
      intro l hl
      have hl2 := (perm_get_sorted_phones d).mem_iff.mp hl
      rcases List.mem_map.mp hl2 with ⟨p, hp, rfl⟩
      simp only [Function.comp_apply]
      rw [decode_render p (hph p hp).1]
    rw [List.map_congr_left hcon]
    simp
  have hempty : (d.get_sorted_phones.map decodePhone) ≠ [] := by
    intro he
    have h1 : d.get_sorted_phones = [] := List.map_eq_nil_iff.mp he
    have h2 := perm_get_sorted_phones d
    rw [h1] at h2
    exact hne (List.map_eq_nil_iff.mp h2.nil_eq.symm)
  have hie : ({ c0 with phones := d.get_sorted_phones.map decodePhone, categories := d.categories, surname := d.surname, first_name := d.first_name, middle_name := d.middle_name, pfx := d.pfx, suffix := [] } : VCFContact).is_empty = false := by
    simp only [VCFContact.is_empty]
    rw [List.isEmpty_eq_false]
    exact hempty
  simp only [VCFContact.to_vcf, hie, Bool.false_eq_true, if_false]
  have h1 : ({ c0 with phones := d.get_sorted_phones.map decodePhone, categories := d.categories, surname := d.surname, first_name := d.first_name, middle_name := d.middle_name, pfx := d.pfx, suffix := [] } : VCFContact).get_full_name_line = d.get_full_name_line := by
    simp only [VCFContact.get_full_name_line, VCFContact.full_name, VCFContact.full_name_parts]
    rw [hsuf]
  have h2 : ({ c0 with phones := d.get_sorted_phones.map decodePhone, categories := d.categories, surname := d.surname, first_name := d.first_name, middle_name := d.middle_name, pfx := d.pfx, suffix := [] } : VCFContact).get_name_line = d.get_name_line := by
    simp only [VCFContact.get_name_line, VCFContact.name_parts]
    rw [hsuf]
  have h3 : ({ c0 with phones := d.get_sorted_phones.map decodePhone, categories := d.categories, surname := d.surname, first_name := d.first_name, middle_name := d.middle_name, pfx := d.pfx, suffix := [] } : VCFContact).get_categories = d.get_categories := rfl
  have h4 : ({ c0 with phones := d.get_sorted_phones.map decodePhone, categories := d.categories, surname := d.surname, first_name := d.first_name, middle_name := d.middle_name, pfx := d.pfx, suffix := [] } : VCFContact).get_sorted_phones = d.get_sorted_phones := by
    have hunf : ({ c0 with phones := d.get_sorted_phones.map decodePhone, categories := d.categories, surname := d.surname, first_name := d.first_name, middle_name := d.middle_name, pfx := d.pfx, suffix := [] } : VCFContact).get_sorted_phones =
        pySorted charListLe ((d.get_sorted_phones.map decodePhone).map PhoneNumber.render) := rfl
    rw [hunf, hrender_decode]
    exact pySorted_of_pairwise charListLe _ (sorted_get_sorted_phones d)
  simp only [VCFContact._to_vcf, h1, h2, h3, h4, Bool.false_eq_true, if_false]

theorem write_contacts_cons (c : VCFContact) (cs : List VCFContact) (v : List Char) (i : Bool) :
    write_contacts_to_vcf_file (c :: cs) v i =
      (c.to_vcf v i).getD [] ++ write_contacts_to_vcf_file cs v i := by
  rw [write_contacts_eq_flatten, write_contacts_eq_flatten]
  by_cases h : c.is_empty
  · have hv : c.to_vcf v i = none := by simp [VCFContact.to_vcf, h]
    simp [List.filter_cons, h, hv]
  · have hv : c.to_vcf v i = some (c._to_vcf v i) := by simp [VCFContact.to_vcf, h]
    simp [List.filter_cons, h, hv]

theorem write_render_roundtrip :
    ∀ ds : List VCFContact,
      (∀ d ∈ ds, d.Reachable ∧ (∀ p ∈ d.phones, p.number ≠ []) ∧ d.categories ≠ [[]] ∧
        d.phones ≠ []) →
      ∀ cur : List (List Char), (cur = [] ∨ cur = [[]]) →
      write_contacts_to_vcf_file
        ((groupContacts (splitNl ((ds.map (fun d => d._to_vcf "3.0".data false)).flatten))
          cur).map buildContact) "3.0".data false =
        (ds.map (fun d => d._to_vcf "3.0".data false)).flatten := by
  intro ds
  induction ds with
  | nil =>
    intro _ cur hcur
    rw [List.map_nil, List.flatten_nil, show splitNl ([] : List Char) = [[]] from rfl,
      groupContacts_lastsep cur, List.map_nil]
    rfl
  | cons d ds ih =>
    intro hds cur hcur
    obtain ⟨hre, hnum, hcats, hne⟩ := hds d (List.mem_cons_self d ds)
    rw [List.map_cons, List.flatten_cons,
      splitNl_block_append d "3.0".data _ (core_lines_no_nl d "3.0".data hre (by decide)),
      groupContacts_core d "3.0".data _ cur, List.map_cons]
    have htv : (buildContact (cur ++ d.bodyLines)).to_vcf "3.0".data false =
        some (d._to_vcf "3.0".data false) := by
      rcases hcur with rfl | rfl
      · rw [List.nil_append]
        show (List.foldl VCFContact.add_line {} d.bodyLines).to_vcf _ _ = _
        rw [rebuild_body d {} ⟨hre.1, hre.2.1, hre.2.2.1, hre.2.2.2.1, hre.2.2.2.2.1,
          hre.2.2.2.2.2.1, hre.2.2.2.2.2.2.1, hre.2.2.2.2.2.2.2.1, hre.2.2.2.2.2.2.2.2⟩
          hnum hcats rfl rfl]
        exact rebuilt_to_vcf d {} "3.0".data hre hne
      · show (List.foldl VCFContact.add_line {} ([] :: d.bodyLines)).to_vcf _ _ = _
        rw [List.foldl_cons, add_line_empty]
        rw [rebuild_body d _ hre hnum hcats rfl rfl]
        exact rebuilt_to_vcf d _ "3.0".data hre hne
    rw [write_contacts_cons, htv, Option.getD_some,
      ih (fun x hx => hds x (List.mem_cons_of_mem d hx)) [[]] (Or.inr rfl)]

/-- C1 counterexample: an input whose phone number normalizes to the empty
string (and whose category value is a bare comma) renders once, but the
rendered output parses to an empty record, so a second cleaning erases it. -/
theorem clean_vcf_not_idempotent :
    clean_vcf (clean_vcf "BEGIN:VCARD\nCATEGORIES:,\nTEL;TYPE=CELL:abc\nEND:VCARD".data) ≠
      clean_vcf "BEGIN:VCARD\nCATEGORIES:,\nTEL;TYPE=CELL:abc\nEND:VCARD".data := by
  decide

/-- C1 (amended): cleaning is idempotent on every input in which each parsed
phone number has a non-empty normalized number and no record's category set
is exactly the singleton of the empty token. -/
theorem clean_vcf_idempotent_amended :
    ∀ t : List Char,
      (∀ c ∈ parse_vcf_file t, (∀ p ∈ c.phones, p.number ≠ []) ∧ c.categories ≠ [[]]) →
      clean_vcf (clean_vcf t) = clean_vcf t := by
  intro t h
  have hclean : clean_vcf t =
      (((parse_vcf_file t).filter (fun c => !c.is_empty)).map
        (fun c => c._to_vcf "3.0".data false)).flatten := by
    unfold clean_vcf
    rw [write_contacts_eq_flatten]
  have hds : ∀ d ∈ (parse_vcf_file t).filter (fun c => !c.is_empty),
      d.Reachable ∧ (∀ p ∈ d.phones, p.number ≠ []) ∧ d.categories ≠ [[]] ∧
        d.phones ≠ [] := by
    intro d hd
    have hmem := List.mem_of_mem_filter hd
    have hfl := List.of_mem_filter hd
    refine ⟨reachable_parse t d hmem, (h d hmem).1, (h d hmem).2, ?_⟩
    simp only [Bool.not_eq_true'] at hfl
    exact List.isEmpty_eq_false.mp hfl
  calc clean_vcf (clean_vcf t)
      = clean_vcf ((((parse_vcf_file t).filter (fun c => !c.is_empty)).map
          (fun c => c._to_vcf "3.0".data false)).flatten) := by rw [hclean]
    _ = (((parse_vcf_file t).filter (fun c => !c.is_empty)).map
          (fun c => c._to_vcf "3.0".data false)).flatten :=
        write_render_roundtrip _ hds [] (Or.inl rfl)
    _ = clean_vcf t := hclean.symm

/-- Witness for the amended C1 at the spec's example input. -/
theorem clean_vcf_idempotent_amended_witness :
    clean_vcf (clean_vcf
      "BEGIN:VCARD\nVERSION:3.0\nFN:Old Name\nN:Doe;Jane;;;\nTEL;TYPE=CELL:555-111-2222\nTEL;TYPE=CELL:5551112222\nEND:VCARD\n\n".data) =
      clean_vcf
      "BEGIN:VCARD\nVERSION:3.0\nFN:Old Name\nN:Doe;Jane;;;\nTEL;TYPE=CELL:555-111-2222\nTEL;TYPE=CELL:5551112222\nEND:VCARD\n\n".data :=
  clean_vcf_idempotent_amended _ (by decide)
